import Mathlib

/-
Verification of the `spellchecker` crate (src/src/lib.rs): a Norvig-style
probabilistic spell checker with two operations, `train` and `correct`,
over a word-frequency table.

Modelling conventions:
* Rust `String` / `&str` values are modelled as `List Char` (`Str`); the
  UTF-8 byte structure is recovered through `Char.utf8Size` where the
  source slices strings at byte offsets.
* `HashMap<String, u32>` is modelled as a function `Str → Option Nat`
  (`none` = key absent).  Counts are `Nat` reduced modulo 2^32 at each
  increment, matching the wrapping `u32` addition of release builds
  (debug builds abort at the wrap instead of wrapping).
* Operations that can panic in the source (string slicing at a non
  character boundary, the `0..word.len() - 1` range underflow for the
  empty word) are modelled with `Option`, `none` meaning a panic.
* `HashMap<u32, String>` (the candidate map of `correct`) is modelled as
  an association list with insert-overwrite (`hmInsert`); iteration-order
  independence of `max_by_key` is proved separately.
-/

set_option maxRecDepth 40000

namespace Spellchecker

abbrev Str := List Char

/-- The fixed 26-letter alphabet installed by `Checker::new` into the
`letters` field. -/
def newLetters : Str := "abcdefghijklmnopqrstuvwxyz".toList

/-- The `Checker` struct: the alphabet string and the frequency map. -/
structure Checker where
  letters : Str
  freqWords : Str → Option Nat

/-- The `Checker::new` constructor: fixed alphabet, empty frequency map. -/
def Checker.new : Checker :=
  { letters := newLetters, freqWords := fun _ => none }

/-! ### The tokenizer used by `train`

`train` runs the regex `[a-z]+` over `text.to_lowercase()` and bumps the
count of every match. -/

/-- Modelled from the standard library: the Unicode lowercase mapping of
one character, as a string.  The only code points whose lowercase mapping
contains characters in the range `a`-`z` are the ASCII uppercase letters
`A`-`Z`, LATIN CAPITAL LETTER I WITH DOT ABOVE (U+0130, whose lowercase
is `i` followed by COMBINING DOT ABOVE U+0307) and KELVIN SIGN (U+212A,
whose lowercase is `k`); these are mapped exactly.  Every other code
point lowercases to a string containing no `a`-`z` character, and the
character itself is outside `a`-`z`, so for the `[a-z]+` tokenizer it is
a run separator before and after the mapping alike; such characters are
kept unchanged, which is observationally equivalent for `train`. -/
def lowerChar (c : Char) : List Char :=
  if 'A' ≤ c ∧ c ≤ 'Z' then [Char.ofNat (c.toNat + 32)]
  else if c = Char.ofNat 0x130 then ['i', Char.ofNat 0x307]
  else if c = Char.ofNat 0x212A then ['k']
  else [c]

def lowerStr (s : Str) : Str := (s.map lowerChar).flatten

/-- Whether a character is matched by the regex character class `[a-z]`. -/
def isLetter (c : Char) : Bool := decide ('a' ≤ c) && decide (c ≤ 'z')

/-- One step of maximal-run extraction, processing characters from the
right: the state is the run currently being built and the completed
tokens to the right. -/
def tokensStep (c : Char) (st : Str × List Str) : Str × List Str :=
  if isLetter c then (c :: st.1, st.2)
  else ([], if st.1 = [] then st.2 else st.1 :: st.2)

def tokensAux (s : Str) : Str × List Str := s.foldr tokensStep ([], [])

/-- Modelled from the regex crate: `find_iter` for the pattern `[a-z]+`
returns the maximal runs of `[a-z]` characters, in order. -/
def tokens (s : Str) : List Str :=
  let st := tokensAux s
  if st.1 = [] then st.2 else st.1 :: st.2

/-- The `entry(m).or_insert(0) += 1` update of the frequency map.  The
counter is a `u32`: the increment is taken modulo `4294967296` (2^32),
the wrapping addition of release builds (debug builds abort at the
wrap). -/
def incrWord (tb : Str → Option Nat) (t : Str) : Str → Option Nat :=
  fun w => if w = t then some (((tb t).getD 0 + 1) % 4294967296) else tb w

def trainTokens (tb : Str → Option Nat) (ts : List Str) : Str → Option Nat :=
  ts.foldl incrWord tb

/-- The `Checker::train` method: tokenize the lowercased text and bump
each token once, in order. -/
def Checker.train (c : Checker) (text : Str) : Checker :=
  { letters := c.letters, freqWords := trainTokens c.freqWords (tokens (lowerStr text)) }

/-- Number of occurrences of a word in a token list. -/
def occCount (w : Str) : List Str → Nat
  | [] => 0
  | t :: ts => (if t = w then 1 else 0) + occCount w ts

/-- Whether a string starts with an `[a-z]` character. -/
def headIsLetter : Str → Bool
  | [] => false
  | c :: _ => isLetter c

/-- Whether a string ends with an `[a-z]` character. -/
def lastIsLetter (s : Str) : Bool :=
  match s.getLast? with
  | some c => isLetter c
  | none => false

/-! ### The edit generator

`Checker::edits` slices the word at **byte** offsets: `word.split_at(i)`
for `i` ranging over `0..word.len()` where `len` is the byte length, and
inner slices `&last[1..]`, `&last[1..2]`, `&last[..1]`, `&last[2..]`.
Rust string slicing panics when an offset is not a character boundary,
and the transposition range `0..word.len() - 1` underflows for the empty
word (aborting in debug builds; in release builds the wrapped range makes
the first slice `&last[1..2]` panic).  A panic is modelled as `none`. -/

/-- UTF-8 byte length of a string. -/
def utf8Len (w : Str) : Nat := (w.map Char.utf8Size).sum

/-- Rust `str::split_at` at byte offset `i`: succeeds exactly when `i`
falls on a character boundary and is at most the byte length. -/
def splitAtByte : Str → Nat → Option (Str × Str)
  | w, 0 => some ([], w)
  | [], _ + 1 => none
  | c :: cs, n + 1 =>
    if c.utf8Size ≤ n + 1 then
      (splitAtByte cs (n + 1 - c.utf8Size)).map (fun p => (c :: p.1, p.2))
    else none

/-- Rust `&s[i..]`. -/
def sliceFromByte (w : Str) (i : Nat) : Option Str :=
  (splitAtByte w i).map Prod.snd

/-- Sequence a list of possibly-panicking computations, in order. -/
def seqOpt : List (Option α) → Option (List α)
  | [] => some []
  | o :: os => o.bind (fun x => (seqOpt os).map (fun xs => x :: xs))

/-- The deletion candidates: `[first, &last[1..]].concat()` for
`(first, last) = word.split_at(i)`, `i` in `0..word.len()`. -/
def deletionsE (w : Str) : Option (List Str) :=
  seqOpt ((List.range (utf8Len w)).map (fun i =>
    (splitAtByte w i).bind (fun p =>
      (sliceFromByte p.2 1).map (fun t => p.1 ++ t))))

/-- The transposition candidates:
`[first, &last[1..2], &last[..1], &last[2..]].concat()` for `i` in
`0..word.len() - 1`; for the empty word that range underflows and the
call panics. -/
def transpositionsE (w : Str) : Option (List Str) :=
  if utf8Len w = 0 then none
  else
    seqOpt ((List.range (utf8Len w - 1)).map (fun i =>
      (splitAtByte w i).bind (fun p =>
        (splitAtByte p.2 1).bind (fun q =>
          (splitAtByte q.2 1).map (fun r => p.1 ++ r.1 ++ q.1 ++ r.2)))))

/-- The alteration candidates: each letter of the alphabet encoded in
place of the character starting at byte `i`, for `i` in `0..word.len()`. -/
def alterationsE (letters : Str) (w : Str) : Option (List Str) :=
  seqOpt (((List.range (utf8Len w)).map (fun i =>
    letters.map (fun ch =>
      (splitAtByte w i).bind (fun p =>
        (sliceFromByte p.2 1).map (fun t => p.1 ++ ch :: t))))).flatten)

/-- The insertion candidates: each letter of the alphabet inserted at
byte offset `i`, for `i` in `0..word.len() + 1`. -/
def insertionsE (letters : Str) (w : Str) : Option (List Str) :=
  seqOpt (((List.range (utf8Len w + 1)).map (fun i =>
    letters.map (fun ch =>
      (splitAtByte w i).map (fun p => p.1 ++ ch :: p.2)))).flatten)

/-- The `Checker::edits` method body: the four candidate families
concatenated in source order (deletion, transposition, alteration,
insertion). -/
def editsGen (letters : Str) (w : Str) : Option (List Str) :=
  (deletionsE w).bind (fun d =>
    (transpositionsE w).bind (fun t =>
      (alterationsE letters w).bind (fun a =>
        (insertionsE letters w).map (fun i => d ++ t ++ a ++ i))))

def Checker.edits (c : Checker) (w : Str) : Option (List Str) :=
  editsGen c.letters w

/-! ### The corrector -/

/-- Insert-overwrite on the association-list model of
`HashMap<u32, String>`: replaces the value stored at an existing key,
otherwise appends the new entry. -/
def hmInsert : List (Nat × Str) → Nat → Str → List (Nat × Str)
  | [], k, v => [(k, v)]
  | e :: es, k, v => if e.1 = k then (k, v) :: es else e :: hmInsert es k v

/-- One comparison step of `Iterator::max_by_key` on `entry.0`: keeps
the running maximum, replacing it on ties so that the last maximal
entry wins. -/
def maxStep (acc : Option (Nat × Str)) (e : Nat × Str) : Option (Nat × Str) :=
  match acc with
  | none => some e
  | some m => if m.1 ≤ e.1 then some e else some m

/-- Rust `Iterator::max_by_key` on `entry.0` over a given iteration
order: returns the last entry with the maximal key. -/
def selectMax (l : List (Nat × Str)) : Option (Nat × Str) :=
  l.foldl maxStep none

/-- One step of the candidate-collection loop of `correct`: look the
edit up in the frequency map and insert `(count, edit)` into the
candidate map when known. -/
def candStep (c : Checker) (m : List (Nat × Str)) (e : Str) :
    List (Nat × Str) :=
  match c.freqWords e with
  | some v => hmInsert m v e
  | none => m

/-- The candidate-collection loop of `correct`, over the edits in
generation order. -/
def buildCandidates (c : Checker) (es : List Str) : List (Nat × Str) :=
  es.foldl (candStep c) []

/-- The `flat_map(|edit| self.edits(edit))` pass computing the
distance-2 candidates; the first panicking inner call aborts. -/
def editsOfEdits (letters : Str) (pe : List Str) : Option (List Str) :=
  (seqOpt (pe.map (editsGen letters))).map List.flatten

/-- The `Checker::correct` method.  The statement
`candidates.iter().max_by_key(..).map(..).unwrap_or_else(..)` in the
source whose value is dropped has no observable effect and is omitted. -/
def Checker.correct (c : Checker) (w : Str) : Option Str :=
  if (c.freqWords w).isSome then some w
  else
    match editsGen c.letters w with
    | none => none
    | some pe =>
      match selectMax (buildCandidates c pe) with
      | some e => some e.2
      | none =>
        match editsOfEdits c.letters pe with
        | none => none
        | some ee =>
          match selectMax (buildCandidates c ee) with
          | some e => some e.2
          | none => some w

/-! ### Character-level form of the edit generator

On words whose characters are all single-byte, byte offsets and character
offsets coincide and every slice succeeds; the generator then produces
the following character-level candidate lists (proved below in
`deletionsE_ascii` etc.).  These are derived forms used by the proofs,
not a second reading of the source. -/

def deletionsA (w : Str) : List Str :=
  (List.range w.length).map (fun i => w.take i ++ w.drop (i + 1))

def transpositionsA (w : Str) : List Str :=
  (List.range (w.length - 1)).map (fun i =>
    w.take i ++ (w.drop (i + 1)).take 1 ++ (w.drop i).take 1 ++ w.drop (i + 2))

def alterationsA (letters : Str) (w : Str) : List Str :=
  ((List.range w.length).map (fun i =>
    letters.map (fun ch => w.take i ++ ch :: w.drop (i + 1)))).flatten

def insertionsA (letters : Str) (w : Str) : List Str :=
  ((List.range (w.length + 1)).map (fun i =>
    letters.map (fun ch => w.take i ++ ch :: w.drop i))).flatten

def editsA (letters : Str) (w : Str) : List Str :=
  deletionsA w ++ transpositionsA w ++ alterationsA letters w ++
    insertionsA letters w

/-! ### State-threaded form of `correct`

`correct` and `edits` take `&mut self`; neither assigns to a field, so
the receiver travels through the call unchanged.  The threaded form
makes that explicit so it can be proved rather than assumed. -/

/-- The `edits` method with its `&mut self` receiver threaded: it reads
only `self.letters`. -/
def Checker.editsSt (c : Checker) (w : Str) : Checker × Option (List Str) :=
  (c, editsGen c.letters w)

/-- The `flat_map` over `self.edits(edit)` with the receiver threaded
through each call; a panicking call aborts the pass. -/
def threadEdits : Checker → List Str → Checker × Option (List Str)
  | c, [] => (c, some [])
  | c, e :: es =>
    let r1 := c.editsSt e
    match r1.2 with
    | none => (r1.1, none)
    | some d =>
      let r2 := threadEdits r1.1 es
      match r2.2 with
      | none => (r2.1, none)
      | some ds => (r2.1, some (d ++ ds))

/-- The `correct` method with the `&mut self` receiver threaded through
every helper call, returning the final receiver state alongside the
result. -/
def Checker.correctSt (c : Checker) (w : Str) : Checker × Option Str :=
  if (c.freqWords w).isSome then (c, some w)
  else
    let r1 := c.editsSt w
    match r1.2 with
    | none => (r1.1, none)
    | some pe =>
      match selectMax (buildCandidates r1.1 pe) with
      | some e => (r1.1, some e.2)
      | none =>
        let r2 := threadEdits r1.1 pe
        match r2.2 with
        | none => (r2.1, none)
        | some ee =>
          match selectMax (buildCandidates r2.1 ee) with
          | some e => (r2.1, some e.2)
          | none => (r2.1, some w)

/-- States reachable from `Checker::new` by any sequence of `train` and
`correct` calls. -/
inductive Reachable : Checker → Prop where
  | new : Reachable Checker.new
  | train (c : Checker) (t : Str) : Reachable c → Reachable (c.train t)
  | correct (c : Checker) (w : Str) : Reachable c → Reachable (c.correctSt w).1

/-- The body of `correct` with the iteration order of the two candidate
hash maps abstracted: `o1` and `o2` stand for the sequences in which
`candidates.iter()` yields the entries of the distance-1 and distance-2
candidate maps. -/
def correctOrd (c : Checker) (w : Str) (o1 o2 : List (Nat × Str)) :
    Option Str :=
  if (c.freqWords w).isSome then some w
  else
    match editsGen c.letters w with
    | none => none
    | some pe =>
      match selectMax o1 with
      | some e => some e.2
      | none =>
        match editsOfEdits c.letters pe with
        | none => none
        | some _ =>
          match selectMax o2 with
          | some e => some e.2
          | none => some w

/-! ## Lemmas about the panic model of slicing -/

theorem seqOpt_append_some {xs ys : List (Option α)} {a b : List α}
    (hx : seqOpt xs = some a) (hy : seqOpt ys = some b) :
    seqOpt (xs ++ ys) = some (a ++ b) := by
  induction xs generalizing a with
  | nil => simp [seqOpt] at hx; simp [hx, hy]
  | cons o os ih =>
    simp only [seqOpt] at hx
    cases ho : o with
    | none => rw [ho] at hx; exact absurd hx (by simp)
    | some x =>
      rw [ho] at hx
      cases hos : seqOpt os with
      | none => rw [hos] at hx; exact absurd hx (by simp)
      | some l =>
        rw [hos] at hx
        simp only [Option.some_bind, Option.map_some', Option.some.injEq] at hx
        subst hx
        simp [seqOpt, ho, ih hos]

theorem seqOpt_map_some {l : List α} {g : α → Option β} {f : α → β}
    (h : ∀ x ∈ l, g x = some (f x)) : seqOpt (l.map g) = some (l.map f) := by
  induction l with
  | nil => rfl
  | cons x xs ih =>
    simp only [List.map_cons, seqOpt, h x (by simp),
      ih (fun y hy => h y (by simp [hy])), Option.some_bind, Option.map_some']

theorem seqOpt_flatten_map {l : List α} {G : α → List (Option β)}
    {F : α → List β} (h : ∀ x ∈ l, seqOpt (G x) = some (F x)) :
    seqOpt ((l.map G).flatten) = some ((l.map F).flatten) := by
  induction l with
  | nil => rfl
  | cons x xs ih =>
    simp only [List.map_cons, List.flatten_cons]
    exact seqOpt_append_some (h x (by simp))
      (ih (fun y hy => h y (by simp [hy])))

theorem utf8Len_ascii {w : Str} (h : ∀ c ∈ w, c.utf8Size = 1) :
    utf8Len w = w.length := by
  induction w with
  | nil => rfl
  | cons c cs ih =>
    simp only [utf8Len, List.map_cons, List.sum_cons, h c (by simp)]
    rw [show (cs.map Char.utf8Size).sum = utf8Len cs from rfl,
      ih (fun d hd => h d (by simp [hd]))]
    simp [Nat.add_comm]

theorem splitAtByte_ascii {w : Str} (h : ∀ c ∈ w, c.utf8Size = 1) :
    ∀ {i : Nat}, i ≤ w.length → splitAtByte w i = some (w.take i, w.drop i) := by
  induction w with
  | nil =>
    intro i hi
    have hz : i = 0 := by simpa using hi
    subst hz
    rfl
  | cons c cs ih =>
    intro i hi
    cases i with
    | zero => rfl
    | succ n =>
      have hc : c.utf8Size = 1 := h c (by simp)
      simp only [splitAtByte, hc, if_pos (by omega : (1 : ℕ) ≤ n + 1),
        Nat.add_sub_cancel]
      rw [ih (fun d hd => h d (by simp [hd])) (by simpa using hi)]
      simp

theorem sliceFromByte_ascii {w : Str} (h : ∀ c ∈ w, c.utf8Size = 1)
    {i : Nat} (hi : i ≤ w.length) : sliceFromByte w i = some (w.drop i) := by
  rw [sliceFromByte, splitAtByte_ascii h hi]
  rfl

/-! ## Character-level content of the edit generator on single-byte words -/

theorem deletionsE_ascii {w : Str} (h : ∀ c ∈ w, c.utf8Size = 1) :
    deletionsE w = some (deletionsA w) := by
  rw [deletionsE, deletionsA, utf8Len_ascii h]
  apply seqOpt_map_some
  intro i hi
  rw [List.mem_range] at hi
  have hd : ∀ c ∈ w.drop i, c.utf8Size = 1 :=
    fun c hc => h c (List.drop_subset i w hc)
  rw [splitAtByte_ascii h (by omega)]
  simp only [Option.some_bind]
  rw [sliceFromByte_ascii hd (by simp; omega)]
  simp [List.drop_drop, Nat.add_comm]

theorem transpositionsE_ascii {w : Str} (h : ∀ c ∈ w, c.utf8Size = 1)
    (hw : w ≠ []) : transpositionsE w = some (transpositionsA w) := by
  have hlen : 0 < w.length := List.length_pos.mpr hw
  rw [transpositionsE, if_neg (by rw [utf8Len_ascii h]; omega),
    transpositionsA, utf8Len_ascii h]
  apply seqOpt_map_some
  intro i hi
  rw [List.mem_range] at hi
  have hd : ∀ c ∈ w.drop i, c.utf8Size = 1 :=
    fun c hc => h c (List.drop_subset i w hc)
  have hld : (w.drop i).length = w.length - i := by simp
  have hd1 : ∀ c ∈ (w.drop i).drop 1, c.utf8Size = 1 :=
    fun c hc => hd c (List.drop_subset 1 (w.drop i) hc)
  rw [splitAtByte_ascii h (by omega)]
  simp only [Option.some_bind]
  rw [splitAtByte_ascii hd (by omega)]
  simp only [Option.some_bind]
  rw [splitAtByte_ascii hd1 (by simp; omega)]
  simp only [Option.map_some', Option.some.injEq]
  rw [List.drop_drop, List.drop_drop]

theorem alterationsE_ascii {letters : Str} {w : Str}
    (h : ∀ c ∈ w, c.utf8Size = 1) :
    alterationsE letters w = some (alterationsA letters w) := by
  rw [alterationsE, alterationsA, utf8Len_ascii h]
  apply seqOpt_flatten_map
  intro i hi
  rw [List.mem_range] at hi
  apply seqOpt_map_some
  intro ch _
  have hd : ∀ c ∈ w.drop i, c.utf8Size = 1 :=
    fun c hc => h c (List.drop_subset i w hc)
  rw [splitAtByte_ascii h (by omega)]
  simp only [Option.some_bind]
  rw [sliceFromByte_ascii hd (by simp; omega)]
  simp [List.drop_drop, Nat.add_comm]

theorem insertionsE_ascii {letters : Str} {w : Str}
    (h : ∀ c ∈ w, c.utf8Size = 1) :
    insertionsE letters w = some (insertionsA letters w) := by
  rw [insertionsE, insertionsA, utf8Len_ascii h]
  apply seqOpt_flatten_map
  intro i hi
  rw [List.mem_range] at hi
  apply seqOpt_map_some
  intro ch _
  rw [splitAtByte_ascii h (by omega)]
  rfl

theorem editsGen_ascii {letters : Str} {w : Str}
    (h : ∀ c ∈ w, c.utf8Size = 1) (hw : w ≠ []) :
    editsGen letters w = some (editsA letters w) := by
  rw [editsGen, deletionsE_ascii h, transpositionsE_ascii h hw,
    alterationsE_ascii h, insertionsE_ascii h, editsA]
  simp [List.append_assoc]

/-! ## Candidate census on single-byte words -/

theorem sum_map_const (l : List α) (k : Nat) :
    (l.map (fun _ => k)).sum = l.length * k := by
  induction l with
  | nil => simp
  | cons x xs ih => simp [ih]; ring

theorem deletionsA_length (w : Str) : (deletionsA w).length = w.length := by
  simp [deletionsA]

theorem transpositionsA_length (w : Str) :
    (transpositionsA w).length = w.length - 1 := by
  simp [transpositionsA]

theorem alterationsA_length (letters w : Str) :
    (alterationsA letters w).length = w.length * letters.length := by
  simp only [alterationsA, List.length_flatten, List.map_map]
  have h : (List.length ∘ fun i =>
      letters.map (fun ch => w.take i ++ ch :: w.drop (i + 1))) =
      fun _ => letters.length := by
    funext i
    simp
  rw [h, sum_map_const, List.length_range]

theorem insertionsA_length (letters w : Str) :
    (insertionsA letters w).length = (w.length + 1) * letters.length := by
  simp only [insertionsA, List.length_flatten, List.map_map]
  have h : (List.length ∘ fun i =>
      letters.map (fun ch => w.take i ++ ch :: w.drop i)) =
      fun _ => letters.length := by
    funext i
    simp
  rw [h, sum_map_const, List.length_range]

/-- Every candidate produced by the generator is built from characters
of the word and of the alphabet, and its length differs from the word
length by at most one. -/
theorem editsA_mem {letters w x : Str} (hx : x ∈ editsA letters w) :
    (∀ c ∈ x, c ∈ w ∨ c ∈ letters) ∧
    w.length - 1 ≤ x.length ∧ x.length ≤ w.length + 1 := by
  rw [editsA] at hx
  simp only [List.mem_append] at hx
  rcases hx with ((hx | hx) | hx) | hx
  · rw [deletionsA, List.mem_map] at hx
    obtain ⟨i, hi, rfl⟩ := hx
    rw [List.mem_range] at hi
    constructor
    · intro c hc
      rcases List.mem_append.mp hc with h | h
      · exact Or.inl (List.take_subset _ _ h)
      · exact Or.inl (List.drop_subset _ _ h)
    · simp only [List.length_append, List.length_take, List.length_drop]
      omega
  · rw [transpositionsA, List.mem_map] at hx
    obtain ⟨i, hi, rfl⟩ := hx
    rw [List.mem_range] at hi
    constructor
    · intro c hc
      simp only [List.mem_append] at hc
      rcases hc with ((h | h) | h) | h
      · exact Or.inl (List.take_subset _ _ h)
      · exact Or.inl (List.drop_subset _ _ (List.take_subset _ _ h))
      · exact Or.inl (List.drop_subset _ _ (List.take_subset _ _ h))
      · exact Or.inl (List.drop_subset _ _ h)
    · simp only [List.length_append, List.length_take, List.length_drop]
      omega
  · rw [alterationsA, List.mem_flatten] at hx
    obtain ⟨L, hL, hxL⟩ := hx
    rw [List.mem_map] at hL
    obtain ⟨i, hi, rfl⟩ := hL
    rw [List.mem_range] at hi
    rw [List.mem_map] at hxL
    obtain ⟨ch, hch, rfl⟩ := hxL
    constructor
    · intro c hc
      rcases List.mem_append.mp hc with h | h
      · exact Or.inl (List.take_subset _ _ h)
      · rcases List.mem_cons.mp h with h | h
        · exact h ▸ Or.inr hch
        · exact Or.inl (List.drop_subset _ _ h)
    · simp only [List.length_append, List.length_take, List.length_cons,
        List.length_drop]
      omega
  · rw [insertionsA, List.mem_flatten] at hx
    obtain ⟨L, hL, hxL⟩ := hx
    rw [List.mem_map] at hL
    obtain ⟨i, hi, rfl⟩ := hL
    rw [List.mem_range] at hi
    rw [List.mem_map] at hxL
    obtain ⟨ch, hch, rfl⟩ := hxL
    constructor
    · intro c hc
      rcases List.mem_append.mp hc with h | h
      · exact Or.inl (List.take_subset _ _ h)
      · rcases List.mem_cons.mp h with h | h
        · exact h ▸ Or.inr hch
        · exact Or.inl (List.drop_subset _ _ h)
    · simp only [List.length_append, List.length_take, List.length_cons,
        List.length_drop]
      omega

theorem editsA_ascii_closed {letters w x : Str}
    (hw : ∀ c ∈ w, c.utf8Size = 1) (hl : ∀ c ∈ letters, c.utf8Size = 1)
    (hx : x ∈ editsA letters w) : ∀ c ∈ x, c.utf8Size = 1 := by
  intro c hc
  rcases (editsA_mem hx).1 c hc with h | h
  · exact hw c h
  · exact hl c h

theorem editsA_nonempty {letters w x : Str} (h2 : 2 ≤ w.length)
    (hx : x ∈ editsA letters w) : x ≠ [] := by
  have := (editsA_mem hx).2.1
  intro h
  rw [h] at this
  simp at this
  omega

/-- On a single-byte word of length at least two, the distance-2 pass
succeeds and yields the flattened edits of all distance-1 edits. -/
theorem editsOfEdits_ascii {letters w : Str}
    (hw : ∀ c ∈ w, c.utf8Size = 1) (hl : ∀ c ∈ letters, c.utf8Size = 1)
    (h2 : 2 ≤ w.length) :
    editsOfEdits letters (editsA letters w) =
      some (((editsA letters w).map (editsA letters)).flatten) := by
  rw [editsOfEdits, seqOpt_map_some (fun x hx =>
    editsGen_ascii (editsA_ascii_closed hw hl hx) (editsA_nonempty h2 hx))]
  rfl

/-! ## The candidate map and the maximum selection -/

theorem hmInsert_mem {m : List (Nat × Str)} {k : Nat} {v : Str}
    {x : Nat × Str} (hx : x ∈ hmInsert m k v) : x = (k, v) ∨ x ∈ m := by
  induction m with
  | nil => simpa [hmInsert] using hx
  | cons e es ih =>
    by_cases he : e.1 = k
    · simp only [hmInsert, if_pos he, List.mem_cons] at hx
      rcases hx with h | h
      · exact Or.inl h
      · exact Or.inr (List.mem_cons_of_mem _ h)
    · simp only [hmInsert, if_neg he, List.mem_cons] at hx
      rcases hx with h | h
      · exact Or.inr (h ▸ List.mem_cons_self _ _)
      · rcases ih h with h2 | h2
        · exact Or.inl h2
        · exact Or.inr (List.mem_cons_of_mem _ h2)

theorem hmInsert_keys (m : List (Nat × Str)) (k : Nat) (v : Str) :
    (hmInsert m k v).map Prod.fst =
      if k ∈ m.map Prod.fst then m.map Prod.fst
      else m.map Prod.fst ++ [k] := by
  induction m with
  | nil => simp [hmInsert]
  | cons e es ih =>
    by_cases he : e.1 = k
    · simp [hmInsert, he]
    · simp only [hmInsert, if_neg he, List.map_cons, ih, List.mem_cons]
      by_cases hk : k ∈ es.map Prod.fst
      · simp [hk, he, Ne.symm he]
      · simp [hk, he, Ne.symm he]

theorem hmInsert_key_mem (m : List (Nat × Str)) (k : Nat) (v : Str) :
    k ∈ (hmInsert m k v).map Prod.fst := by
  rw [hmInsert_keys]
  split_ifs with hk
  · exact hk
  · simp

theorem hmInsert_keys_mono {m : List (Nat × Str)} {k' : Nat} (k : Nat)
    (v : Str) (h : k' ∈ m.map Prod.fst) :
    k' ∈ (hmInsert m k v).map Prod.fst := by
  rw [hmInsert_keys]
  split_ifs with hk
  · exact h
  · simp [h]

theorem hmInsert_nodup {m : List (Nat × Str)} {k : Nat} {v : Str}
    (h : (m.map Prod.fst).Nodup) :
    ((hmInsert m k v).map Prod.fst).Nodup := by
  rw [hmInsert_keys]
  split_ifs with hk
  · exact h
  · simp [List.nodup_append, h, hk]

theorem maxStep_fold_some {l : List (Nat × Str)} :
    ∀ {m e : Nat × Str}, l.foldl maxStep (some m) = some e →
    (e = m ∨ e ∈ l) ∧ m.1 ≤ e.1 ∧ ∀ x ∈ l, x.1 ≤ e.1 := by
  induction l with
  | nil =>
    intro m e h
    simp only [List.foldl_nil, Option.some.injEq] at h
    subst h
    exact ⟨Or.inl rfl, le_refl _, by simp⟩
  | cons a l ih =>
    intro m e h
    rw [List.foldl_cons] at h
    by_cases hma : m.1 ≤ a.1
    · rw [show maxStep (some m) a = some a by simp [maxStep, hma]] at h
      obtain ⟨h1, h2, h3⟩ := ih h
      refine ⟨?_, ?_, ?_⟩
      · rcases h1 with h1 | h1
        · exact Or.inr (h1 ▸ List.mem_cons_self _ _)
        · exact Or.inr (List.mem_cons_of_mem _ h1)
      · exact le_trans hma h2
      · intro x hx
        rcases List.mem_cons.mp hx with hx | hx
        · exact hx ▸ h2
        · exact h3 x hx
    · rw [show maxStep (some m) a = some m by simp [maxStep, hma]] at h
      obtain ⟨h1, h2, h3⟩ := ih h
      refine ⟨?_, h2, ?_⟩
      · rcases h1 with h1 | h1
        · exact Or.inl h1
        · exact Or.inr (List.mem_cons_of_mem _ h1)
      · intro x hx
        rcases List.mem_cons.mp hx with hx | hx
        · subst hx
          omega
        · exact h3 x hx

theorem selectMax_some {l : List (Nat × Str)} {e : Nat × Str}
    (h : selectMax l = some e) : e ∈ l ∧ ∀ x ∈ l, x.1 ≤ e.1 := by
  cases l with
  | nil => exact absurd h (by simp [selectMax])
  | cons a l =>
    rw [selectMax, List.foldl_cons,
      show maxStep none a = some a from rfl] at h
    obtain ⟨h1, h2, h3⟩ := maxStep_fold_some h
    refine ⟨?_, ?_⟩
    · rcases h1 with h1 | h1
      · exact h1 ▸ List.mem_cons_self _ _
      · exact List.mem_cons_of_mem _ h1
    · intro x hx
      rcases List.mem_cons.mp hx with hx | hx
      · exact hx ▸ h2
      · exact h3 x hx

theorem maxStep_fold_isSome (l : List (Nat × Str)) :
    ∀ m : Nat × Str, ∃ e, l.foldl maxStep (some m) = some e := by
  induction l with
  | nil => exact fun m => ⟨m, rfl⟩
  | cons a l ih =>
    intro m
    rw [List.foldl_cons]
    by_cases hma : m.1 ≤ a.1
    · rw [show maxStep (some m) a = some a by simp [maxStep, hma]]
      exact ih a
    · rw [show maxStep (some m) a = some m by simp [maxStep, hma]]
      exact ih m

theorem selectMax_eq_none {l : List (Nat × Str)}
    (h : selectMax l = none) : l = [] := by
  cases l with
  | nil => rfl
  | cons a l =>
    rw [selectMax, List.foldl_cons,
      show maxStep none a = some a from rfl] at h
    obtain ⟨e, he⟩ := maxStep_fold_isSome l a
    rw [he] at h
    exact absurd h (by simp)

/-- In a list with no repeated keys, two entries with the same key are
the same entry. -/
theorem keyed_nodup_eq {l : List (Nat × Str)} {a b : Nat × Str}
    (h : (l.map Prod.fst).Nodup) (ha : a ∈ l) (hb : b ∈ l)
    (hk : a.1 = b.1) : a = b := by
  induction l with
  | nil => cases ha
  | cons e es ih =>
    rw [List.map_cons, List.nodup_cons] at h
    rcases List.mem_cons.mp ha with ha1 | ha1 <;>
      rcases List.mem_cons.mp hb with hb1 | hb1
    · rw [ha1, hb1]
    · exfalso
      apply h.1
      rw [ha1] at hk
      rw [hk]
      exact List.mem_map_of_mem Prod.fst hb1
    · exfalso
      apply h.1
      rw [hb1] at hk
      rw [← hk]
      exact List.mem_map_of_mem Prod.fst ha1
    · exact ih h.2 ha1 hb1

/-- `max_by_key` does not depend on the iteration order of a map whose
keys are distinct. -/
theorem selectMax_perm {l1 l2 : List (Nat × Str)} (hp : l1.Perm l2)
    (hn : (l1.map Prod.fst).Nodup) : selectMax l1 = selectMax l2 := by
  cases h1 : selectMax l1 with
  | none =>
    have he : l1 = [] := selectMax_eq_none h1
    subst he
    rw [hp.nil_eq.symm]
    rfl
  | some e1 =>
    cases h2 : selectMax l2 with
    | none =>
      have he : l2 = [] := selectMax_eq_none h2
      subst he
      rw [hp.eq_nil] at h1
      exact absurd h1 (by simp [selectMax])
    | some e2 =>
      obtain ⟨m1, mx1⟩ := selectMax_some h1
      obtain ⟨m2, mx2⟩ := selectMax_some h2
      have e2l1 : e2 ∈ l1 := hp.symm.subset m2
      have e1l2 : e1 ∈ l2 := hp.subset m1
      have hk : e1.1 = e2.1 := le_antisymm (mx2 e1 e1l2) (mx1 e2 e2l1)
      rw [keyed_nodup_eq hn m1 e2l1 hk]

theorem candFold_mem {c : Checker} {es : List Str} :
    ∀ {m : List (Nat × Str)} {x : Nat × Str},
    x ∈ es.foldl (candStep c) m →
    x ∈ m ∨ (x.2 ∈ es ∧ c.freqWords x.2 = some x.1) := by
  induction es with
  | nil => intro m x hx; exact Or.inl hx
  | cons e es ih =>
    intro m x hx
    rw [List.foldl_cons] at hx
    rcases ih hx with h | h
    · rw [candStep] at h
      cases hf : c.freqWords e with
      | none => rw [hf] at h; exact Or.inl h
      | some v =>
        rw [hf] at h
        rcases hmInsert_mem h with h2 | h2
        · refine Or.inr ⟨?_, ?_⟩
          · rw [h2]
            exact List.mem_cons_self _ _
          · rw [h2]
            exact hf
        · exact Or.inl h2
    · exact Or.inr ⟨List.mem_cons_of_mem _ h.1, h.2⟩

theorem candFold_keys_mono {c : Checker} {es : List Str} :
    ∀ {m : List (Nat × Str)} {k : Nat}, k ∈ m.map Prod.fst →
    k ∈ (es.foldl (candStep c) m).map Prod.fst := by
  induction es with
  | nil => intro m k hk; exact hk
  | cons e es ih =>
    intro m k hk
    rw [List.foldl_cons]
    apply ih
    rw [candStep]
    cases hf : c.freqWords e with
    | none => exact hk
    | some v => exact hmInsert_keys_mono v e hk

theorem candFold_key_of_known {c : Checker} {es : List Str} :
    ∀ {m : List (Nat × Str)} {s : Str} {v : Nat}, s ∈ es →
    c.freqWords s = some v →
    v ∈ (es.foldl (candStep c) m).map Prod.fst := by
  induction es with
  | nil => intro m s v hs; cases hs
  | cons e es ih =>
    intro m s v hs hv
    rw [List.foldl_cons]
    rcases List.mem_cons.mp hs with hs1 | hs1
    · apply candFold_keys_mono
      rw [candStep, ← hs1, hv]
      exact hmInsert_key_mem _ _ _
    · exact ih hs1 hv

theorem candFold_nodup {c : Checker} {es : List Str} :
    ∀ {m : List (Nat × Str)}, (m.map Prod.fst).Nodup →
    ((es.foldl (candStep c) m).map Prod.fst).Nodup := by
  induction es with
  | nil => intro m hm; exact hm
  | cons e es ih =>
    intro m hm
    rw [List.foldl_cons]
    apply ih
    rw [candStep]
    cases hf : c.freqWords e with
    | none => exact hm
    | some v => exact hmInsert_nodup hm

theorem buildCandidates_nodup (c : Checker) (es : List Str) :
    ((buildCandidates c es).map Prod.fst).Nodup :=
  candFold_nodup (by simp)

theorem buildCandidates_empty {c : Checker} {es : List Str}
    (h : ∀ e ∈ es, c.freqWords e = none) : buildCandidates c es = [] := by
  rw [buildCandidates]
  have hgen : ∀ m : List (Nat × Str), es.foldl (candStep c) m = m := by
    induction es with
    | nil => intro m; rfl
    | cons e es ih =>
      intro m
      rw [List.foldl_cons, candStep, h e (List.mem_cons_self _ _)]
      exact ih (fun x hx => h x (List.mem_cons_of_mem _ hx)) m
  exact hgen []

theorem buildCandidates_ne_nil {c : Checker} {es : List Str} {s : Str}
    {v : Nat} (hs : s ∈ es) (hv : c.freqWords s = some v) :
    buildCandidates c es ≠ [] := by
  intro h
  have := @candFold_key_of_known c es ([] : List (Nat × Str)) s v hs hv
  rw [← buildCandidates, h] at this
  cases this

/-- What `max_by_key` over the candidate map returns: a generated
candidate that is a key of the frequency map, whose count is maximal
among all known generated candidates. -/
theorem selectMax_buildCandidates {c : Checker} {es : List Str}
    {e : Nat × Str} (h : selectMax (buildCandidates c es) = some e) :
    e.2 ∈ es ∧ c.freqWords e.2 = some e.1 ∧
    ∀ s v, s ∈ es → c.freqWords s = some v → v ≤ e.1 := by
  obtain ⟨he, hmax⟩ := selectMax_some h
  rcases candFold_mem he with h0 | h0
  · cases h0
  refine ⟨h0.1, h0.2, ?_⟩
  intro s v hs hv
  have hk : v ∈ (buildCandidates c es).map Prod.fst :=
    candFold_key_of_known hs hv
  obtain ⟨y, hy, hyk⟩ := List.mem_map.mp hk
  exact hyk ▸ hmax y hy

/-! ## Tokenizer and training lemmas -/

/-- The effect of one `train` pass on one key of the frequency map: the
count grows by the number of occurrences of the key among the extracted
tokens — modulo 2^32, since the counter is a wrapping `u32` — and an
absent key is inserted when the word occurs at all. -/
theorem trainTokens_apply (tb : Str → Option Nat) (ts : List Str)
    (w : Str) :
    trainTokens tb ts w =
      if occCount w ts = 0 then tb w
      else some (((tb w).getD 0 + occCount w ts) % 4294967296) := by
  induction ts generalizing tb with
  | nil => simp [trainTokens, occCount]
  | cons t ts ih =>
    rw [trainTokens, List.foldl_cons,
      show List.foldl incrWord (incrWord tb t) ts =
        trainTokens (incrWord tb t) ts from rfl, ih]
    by_cases hw : t = w
    · subst hw
      have hit : incrWord tb t t =
          some (((tb t).getD 0 + 1) % 4294967296) := by
        simp [incrWord]
      rw [show occCount t (t :: ts) = 1 + occCount t ts by
        rw [occCount, if_pos rfl]]
      by_cases h0 : occCount t ts = 0
      · rw [if_pos h0, if_neg (by omega), hit, h0]
      · rw [if_neg h0, if_neg (by omega), hit]
        simp only [Option.getD_some]
        congr 1
        omega
    · have hwt : w ≠ t := fun h => hw h.symm
      have hiw : incrWord tb t w = tb w := by
        simp [incrWord, hwt]
      rw [show occCount w (t :: ts) = occCount w ts by
        rw [occCount, if_neg hw, Nat.zero_add]]
      rw [hiw]

theorem occCount_pos_mem {w : Str} {ts : List Str}
    (h : occCount w ts ≠ 0) : w ∈ ts := by
  induction ts with
  | nil => exact absurd rfl h
  | cons t ts ih =>
    rw [occCount] at h
    by_cases ht : t = w
    · exact ht ▸ List.mem_cons_self _ _
    · rw [if_neg ht, Nat.zero_add] at h
      exact List.mem_cons_of_mem _ (ih h)

theorem tokensAux_letters (s : Str) :
    (∀ c ∈ (tokensAux s).1, isLetter c = true) ∧
    (∀ t ∈ (tokensAux s).2, ∀ c ∈ t, isLetter c = true) := by
  induction s with
  | nil => exact ⟨by simp [tokensAux], by simp [tokensAux]⟩
  | cons a s ih =>
    rw [tokensAux, List.foldr_cons,
      show s.foldr tokensStep ([], []) = tokensAux s from rfl, tokensStep]
    by_cases ha : isLetter a
    · rw [if_pos ha]
      refine ⟨?_, ih.2⟩
      intro c hc
      rcases List.mem_cons.mp hc with h | h
      · exact h ▸ ha
      · exact ih.1 c h
    · rw [if_neg ha]
      refine ⟨by simp, ?_⟩
      split_ifs with hr
      · exact ih.2
      · intro t ht
        rcases List.mem_cons.mp ht with h | h
        · exact h ▸ ih.1
        · exact ih.2 t h

/-- Every token extracted by the tokenizer consists of `[a-z]`
characters only. -/
theorem tokens_all_letters (s : Str) :
    ∀ t ∈ tokens s, ∀ c ∈ t, isLetter c = true := by
  rw [tokens]
  split_ifs with hr
  · exact (tokensAux_letters s).2
  · intro t ht
    rcases List.mem_cons.mp ht with h | h
    · exact h ▸ (tokensAux_letters s).1
    · exact (tokensAux_letters s).2 t h

theorem foldr_tokensStep_shift (x : Str) (T : List Str) :
    x.foldr tokensStep ([], T) =
      ((tokensAux x).1, (tokensAux x).2 ++ T) := by
  induction x with
  | nil => simp [tokensAux]
  | cons c cs ih =>
    rw [List.foldr_cons, ih,
      show tokensAux (c :: cs) = tokensStep c (tokensAux cs) from rfl]
    simp only [tokensStep]
    by_cases hc : isLetter c
    · simp [hc]
    · simp only [hc, Bool.false_eq_true, if_false]
      split_ifs <;> simp

theorem tokensAux_head_not_letter {y : Str}
    (hy : headIsLetter y = false) : tokensAux y = ([], tokens y) := by
  cases y with
  | nil => rfl
  | cons c cs =>
    rw [headIsLetter] at hy
    rw [tokens, tokensAux, List.foldr_cons,
      show cs.foldr tokensStep ([], []) = tokensAux cs from rfl,
      tokensStep, if_neg (by simp [hy])]
    simp [tokensAux, tokensStep, hy]

/-- Tokenization splits over a boundary whose right side does not start
with a letter. -/
theorem tokens_append_right {x y : Str} (hy : headIsLetter y = false) :
    tokens (x ++ y) = tokens x ++ tokens y := by
  have h1 : tokensAux (x ++ y) =
      ((tokensAux x).1, (tokensAux x).2 ++ tokens y) := by
    rw [tokensAux, List.foldr_append,
      show y.foldr tokensStep ([], []) = tokensAux y from rfl,
      tokensAux_head_not_letter hy, foldr_tokensStep_shift]
  rw [tokens, tokens, h1]
  split_ifs with hr
  · rfl
  · rfl

/-- A leading non-letter character contributes no token. -/
theorem tokens_cons_not_letter {d : Char} {z : Str}
    (hd : isLetter d = false) : tokens (d :: z) = tokens z := by
  rw [tokens, show tokensAux (d :: z) = tokensStep d (tokensAux z)
    from rfl]
  simp only [tokensStep, hd, Bool.false_eq_true, if_false]
  simp [tokens]

/-- Tokenization splits over a boundary whose left side does not end
with a letter. -/
theorem tokens_append_left {x y : Str} (hx : lastIsLetter x = false) :
    tokens (x ++ y) = tokens x ++ tokens y := by
  rcases List.eq_nil_or_concat x with rfl | ⟨x', d, rfl⟩
  · rw [List.nil_append, show tokens ([] : Str) = [] from rfl,
      List.nil_append]
  · rw [List.concat_eq_append] at hx ⊢
    have hd : isLetter d = false := by
      rw [lastIsLetter, List.getLast?_concat] at hx
      exact hx
    have haux : ∀ z : Str, tokensAux (x' ++ d :: z) =
        ((tokensAux x').1, (tokensAux x').2 ++ tokens z) := by
      intro z
      rw [tokensAux, List.foldr_append]
      rw [show (d :: z).foldr tokensStep ([], []) = tokensAux (d :: z)
        from rfl]
      rw [show tokensAux (d :: z) = ([], tokens z) by
        rw [tokensAux_head_not_letter (by rw [headIsLetter]; exact hd),
          tokens_cons_not_letter hd]]
      exact foldr_tokensStep_shift x' (tokens z)
    have h1 : tokensAux ((x' ++ [d]) ++ y) =
        ((tokensAux x').1, (tokensAux x').2 ++ tokens y) := by
      rw [List.append_assoc, List.singleton_append]
      exact haux y
    have h2 : tokens (x' ++ [d]) = tokens x' := by
      rw [tokens, show tokensAux (x' ++ [d]) =
        ((tokensAux x').1, (tokensAux x').2 ++ tokens []) by
          rw [show x' ++ [d] = x' ++ d :: ([] : Str) from rfl]
          exact haux []]
      rw [show tokens ([] : Str) = [] from rfl, List.append_nil, tokens]
    rw [tokens, h1, h2]
    show (if (tokensAux x').1 = [] then (tokensAux x').2 ++ tokens y
      else (tokensAux x').1 :: ((tokensAux x').2 ++ tokens y)) =
      tokens x' ++ tokens y
    by_cases hr : (tokensAux x').1 = []
    · rw [if_pos hr, show tokens x' = (tokensAux x').2 by
        rw [tokens, if_pos hr]]
    · rw [if_neg hr, show tokens x' = (tokensAux x').1 :: (tokensAux x').2
        by rw [tokens, if_neg hr], List.cons_append]

theorem trainTokens_key_origin {tb : Str → Option Nat} {ts : List Str}
    {w : Str} {v : Nat} (h : trainTokens tb ts w = some v) :
    tb w ≠ none ∨ w ∈ ts := by
  rw [trainTokens_apply] at h
  by_cases h0 : occCount w ts = 0
  · rw [if_pos h0] at h
    exact Or.inl (by rw [h]; simp)
  · exact Or.inr (occCount_pos_mem h0)

/-! ## The receiver is threaded through `correct` unchanged -/

theorem threadEdits_eq (c : Checker) (pe : List Str) :
    threadEdits c pe = (c, editsOfEdits c.letters pe) := by
  induction pe with
  | nil => rfl
  | cons e es ih =>
    rw [threadEdits]
    cases hg : editsGen c.letters e with
    | none =>
      simp only [Checker.editsSt, hg]
      rw [editsOfEdits]
      simp [seqOpt, hg]
    | some d =>
      simp only [Checker.editsSt, hg, ih]
      cases hs : seqOpt (es.map (editsGen c.letters)) with
      | none => simp [editsOfEdits, seqOpt, hg, hs]
      | some L => simp [editsOfEdits, seqOpt, hg, hs]

theorem correctSt_eq (c : Checker) (w : Str) :
    c.correctSt w = (c, c.correct w) := by
  rw [Checker.correctSt, Checker.correct]
  by_cases hc : (c.freqWords w).isSome
  · rw [if_pos hc, if_pos hc]
  · rw [if_neg hc, if_neg hc]
    simp only [Checker.editsSt]
    cases hg : editsGen c.letters w with
    | none => simp only [hg]
    | some pe =>
      simp only [hg]
      cases h1 : selectMax (buildCandidates c pe) with
      | some e => simp only [h1]
      | none =>
        simp only [h1, threadEdits_eq]
        cases h2 : editsOfEdits c.letters pe with
        | none => simp only [h2]
        | some ee =>
          simp only [h2]
          cases h3 : selectMax (buildCandidates c ee) <;> simp [h3]

theorem correctSt_fst (c : Checker) (w : Str) : (c.correctSt w).1 = c := by
  rw [correctSt_eq]

/-! ## Claim theorems -/

/-- C2: evaluation of the code at the claimed inputs.  `train("")` is
indeed a no-op, but `correct("")` on the untrained table does not return
`""`: it panics (the transposition range `0..word.len() - 1` underflows),
modelled here as `none`. -/
theorem train_empty_noop_and_correct_empty_panics :
    (∀ c : Checker, c.train [] = c) ∧ Checker.new.correct [] = none :=
  ⟨fun _ => rfl, rfl⟩

/-- C3: evaluation of the code at a word containing the two-byte
character é.  `edits` slices at raw byte offsets, and the slice at byte
offset 1 inside é is not a character boundary, so the call panics
(modelled as `none`) instead of producing candidates. -/
theorem edits_multibyte_panics : editsGen newLetters ['n', 'é'] = none :=
  rfl

/-- C9: `correct` is read-only: threading the `&mut self` receiver
through the call returns the receiver unchanged (frequency table and
alphabet), and the result is exactly the pure corrector value. -/
theorem correct_readonly (c : Checker) (w : Str) :
    (c.correctSt w).1 = c ∧ (c.correctSt w).2 = c.correct w := by
  rw [correctSt_eq]
  exact ⟨rfl, rfl⟩

/-- C8: in every state reachable from `Checker::new` by `train` and
`correct` calls, every key of the frequency table consists only of
lowercase-alphabet characters. -/
theorem reachable_keys_alphabetic {c : Checker} (hr : Reachable c) :
    ∀ w v, c.freqWords w = some v → ∀ ch ∈ w, 'a' ≤ ch ∧ ch ≤ 'z' := by
  induction hr with
  | new =>
    intro w v h
    exact absurd h (by simp [Checker.new])
  | train c t hc ih =>
    intro w v h ch hch
    rcases trainTokens_key_origin
        (show trainTokens c.freqWords (tokens (lowerStr t)) w = some v
          from h) with h1 | h1
    · obtain ⟨u, hu⟩ := Option.ne_none_iff_exists'.mp h1
      exact ih w u hu ch hch
    · have hl := tokens_all_letters (lowerStr t) w h1 ch hch
      rw [isLetter] at hl
      simpa using hl
  | correct c w0 hc ih =>
    intro w v h ch hch
    rw [correctSt_fst] at h
    exact ih w v h ch hch

/-- C8 witness: after training on `"hi"`, the key `"hi"` is present and
its characters are in the alphabet range. -/
theorem reachable_keys_alphabetic_witness : 'a' ≤ 'h' ∧ 'h' ≤ 'z' :=
  reachable_keys_alphabetic
    (Reachable.train Checker.new ['h', 'i'] Reachable.new)
    ['h', 'i'] 1 (by decide) 'h' (by decide)

/-- C6: `train` lowercases the text, extracts the maximal `[a-z]` runs,
and bumps each token count by one (a wrapping `u32` increment, hence
modulo 2^32), inserting absent keys with count 1: stated as the exact
effect of one `train` call on an arbitrary key, together with the two
concrete examples of the specification and the two non-ASCII characters
whose Unicode lowercase lands in `[a-z]` (KELVIN SIGN trains the key
`k`; I WITH DOT ABOVE contributes an `i` token, its combining dot
separating it from what follows). -/
theorem train_tokenizer_spec :
    (∀ (c : Checker) (text w : Str),
      (c.train text).freqWords w =
        if occCount w (tokens (lowerStr text)) = 0 then c.freqWords w
        else some (((c.freqWords w).getD 0 +
          occCount w (tokens (lowerStr text))) % 4294967296)) ∧
    (Checker.new.train "Spelling".toList).freqWords "spelling".toList =
      some 1 ∧
    (Checker.new.train [Char.ofNat 0x212A]).freqWords ['k'] = some 1 ∧
    (Checker.new.train [Char.ofNat 0x130, 'x']).freqWords ['i'] =
      some 1 ∧
    (Checker.new.train [Char.ofNat 0x130, 'x']).freqWords ['x'] =
      some 1 ∧
    (Checker.new.train [Char.ofNat 0x130, 'x']).freqWords ['i', 'x'] =
      none ∧
    (∀ w : Str,
      (Checker.new.train "hello, world! 123".toList).freqWords w =
        if w = "hello".toList then some 1
        else if w = "world".toList then some 1 else none) := by
  refine ⟨?_, by decide, by decide, by decide, by decide, by decide, ?_⟩
  · intro c text w
    exact trainTokens_apply c.freqWords (tokens (lowerStr text)) w
  · intro w
    by_cases h1 : w = "hello".toList
    · subst h1
      decide
    · by_cases h2 : w = "world".toList
      · subst h2
        decide
      · rw [if_neg h1, if_neg h2]
        show trainTokens Checker.new.freqWords
          (tokens (lowerStr "hello, world! 123".toList)) w = none
        rw [trainTokens_apply,
          show tokens (lowerStr "hello, world! 123".toList) =
            ["hello".toList, "world".toList] by decide]
        rw [if_pos]
        · rfl
        · rw [occCount, occCount, occCount,
            if_neg (fun h => h1 h.symm), if_neg (fun h => h2 h.symm)]

/-- Training once on the one-letter text `"a"` performs one wrapping
`u32` increment of the count of the key `"a"`. -/
theorem train_single_count (c : Checker) :
    (c.train ['a']).freqWords ['a'] =
      some (((c.freqWords ['a']).getD 0 + 1) % 4294967296) := by
  show trainTokens c.freqWords (tokens (lowerStr ['a'])) ['a'] = _
  rw [trainTokens_apply,
    show occCount ['a'] (tokens (lowerStr ['a'])) = 1 from rfl,
    if_neg (by omega)]

/-- Training `n` times on the text `"a"` leaves the key `"a"` at count
`n % 2^32`: the `u32` counter wraps. -/
theorem train_iterate_wrap (n : Nat) :
    ((fun ck : Checker => ck.train ['a'])^[n] Checker.new).freqWords
        ['a'] =
      if n = 0 then none else some (n % 4294967296) := by
  induction n with
  | zero => rfl
  | succ n ih =>
    rw [Function.iterate_succ_apply', train_single_count, ih]
    by_cases hn : n = 0
    · subst hn
      simp
    · rw [if_neg hn, if_neg (Nat.succ_ne_zero n)]
      simp only [Option.getD_some]
      congr 1
      omega

/-- C7 (amended): counts never decrease under training as long as the
`u32` counter does not wrap, and training on a concatenation agrees
with sequential training whenever no token spans the boundary (in
particular when the first text does not end with a letter or the second
does not begin with one, after lowercasing). -/
theorem train_monotone_concat (c : Checker) (a b w : Str) :
    ((c.freqWords w).getD 0 + occCount w (tokens (lowerStr a)) <
        4294967296 →
      (c.freqWords w).getD 0 ≤ ((c.train a).freqWords w).getD 0) ∧
    (headIsLetter (lowerStr b) = false ∨ lastIsLetter (lowerStr a) = false →
      (c.train a).train b = c.train (a ++ b)) := by
  constructor
  · intro hlt
    show (c.freqWords w).getD 0 ≤
      (trainTokens c.freqWords (tokens (lowerStr a)) w).getD 0
    rw [trainTokens_apply]
    split_ifs with h0
    · exact le_refl _
    · simp only [Option.getD_some]
      rw [Nat.mod_eq_of_lt hlt]
      omega
  · intro hcond
    have hsplit : tokens (lowerStr (a ++ b)) =
        tokens (lowerStr a) ++ tokens (lowerStr b) := by
      rw [lowerStr, List.map_append, List.flatten_append]
      rcases hcond with h | h
      · exact tokens_append_right h
      · exact tokens_append_left h
    rw [Checker.train, Checker.train, Checker.train]
    simp only []
    congr 1
    rw [hsplit, trainTokens, trainTokens, trainTokens, List.foldl_append]

/-- C7 counterexample: the claim fails as stated, on both halves.  A
token can span the concatenation boundary: training on `"ab"` then
`"cd"` yields keys `"ab"` and `"cd"`, while training once on `"abcd"`
yields the single key `"abcd"`.  And a count can decrease across train
calls: after 2^32 - 1 trainings of `"a"` the count is 4294967295, and
the next training wraps the `u32` counter to 0. -/
theorem train_concat_counterexample :
    (¬ ((Checker.new.train ['a', 'b']).train ['c', 'd'] =
      Checker.new.train (['a', 'b'] ++ ['c', 'd']))) ∧
    (((fun ck : Checker => ck.train ['a'])^[4294967296]
        Checker.new).freqWords ['a']).getD 0 <
      (((fun ck : Checker => ck.train ['a'])^[4294967295]
        Checker.new).freqWords ['a']).getD 0 := by
  constructor
  · intro h
    exact absurd
      (congrArg (fun ck => ck.freqWords ['a', 'b', 'c', 'd']) h)
      (by decide)
  · rw [train_iterate_wrap, train_iterate_wrap,
      if_neg (by omega), if_neg (by omega)]
    simp only [Option.getD_some]
    omega

/-- C7 witness: a concrete monotonicity instance below the wrap bound,
and a concrete boundary-safe concatenation (the first text ends with a
space). -/
theorem train_monotone_concat_witness :
    ((Checker.new.freqWords ['a', 'b']).getD 0 ≤
      ((Checker.new.train ['a', 'b', ' ']).freqWords ['a', 'b']).getD 0) ∧
    (Checker.new.train ['a', 'b', ' ']).train ['c', 'd'] =
      Checker.new.train (['a', 'b', ' '] ++ ['c', 'd']) :=
  ⟨(train_monotone_concat Checker.new ['a', 'b', ' '] ['c', 'd']
      ['a', 'b']).1 (by decide),
   (train_monotone_concat Checker.new ['a', 'b', ' '] ['c', 'd']
      ['a', 'b']).2 (Or.inr (by decide))⟩

/-- C5: on a non-empty word of single-byte characters the generator
succeeds and produces exactly `len` deletions, `len - 1` transpositions,
`26 * len` alterations and `26 * (len + 1)` insertions, for a total of
`54 * len + 25` candidates. -/
theorem edits_census (w : Str) (hw : w ≠ [])
    (h : ∀ c ∈ w, c.utf8Size = 1) :
    editsGen newLetters w = some (editsA newLetters w) ∧
    (deletionsA w).length = w.length ∧
    (transpositionsA w).length = w.length - 1 ∧
    (alterationsA newLetters w).length = w.length * 26 ∧
    (insertionsA newLetters w).length = (w.length + 1) * 26 ∧
    (editsA newLetters w).length = 54 * w.length + 25 := by
  have hlen : 0 < w.length := List.length_pos.mpr hw
  have h26 : newLetters.length = 26 := rfl
  have ha := alterationsA_length newLetters w
  have hi := insertionsA_length newLetters w
  rw [h26] at ha hi
  refine ⟨editsGen_ascii h hw, deletionsA_length w,
    transpositionsA_length w, ha, hi, ?_⟩
  rw [editsA]
  simp only [List.length_append, deletionsA_length, transpositionsA_length,
    ha, hi]
  omega

/-- C5 witness at the word `"ab"`. -/
theorem edits_census_witness :
    editsGen newLetters ['a', 'b'] = some (editsA newLetters ['a', 'b']) ∧
    (deletionsA ['a', 'b']).length = 2 ∧
    (transpositionsA ['a', 'b']).length = 1 ∧
    (alterationsA newLetters ['a', 'b']).length = 2 * 26 ∧
    (insertionsA newLetters ['a', 'b']).length = 3 * 26 ∧
    (editsA newLetters ['a', 'b']).length = 54 * 2 + 25 :=
  edits_census ['a', 'b'] (by decide) (by decide)

/-- C1 (amended): tier precedence of `correct`.  An exact match is
returned unconditionally.  Otherwise, whenever the distance-1 generator
succeeds and some distance-1 candidate is known, a known distance-1
candidate of maximal count is returned (never a distance-2 candidate);
only when no distance-1 candidate is known, and the distance-2 pass also
succeeds, is a known distance-2 candidate of maximal count returned.
(The generator success hypotheses are necessary: for unknown words that
are empty, contain multi-byte characters, or have a single character,
the source panics instead, see the counterexample.) -/
theorem correct_tier_precedence (c : Checker) (w : Str) :
    ((c.freqWords w).isSome → c.correct w = some w) ∧
    (∀ pe, c.freqWords w = none → editsGen c.letters w = some pe →
      (∃ e ∈ pe, (c.freqWords e).isSome) →
      ∃ r v, r ∈ pe ∧ c.freqWords r = some v ∧ c.correct w = some r ∧
        ∀ s u, s ∈ pe → c.freqWords s = some u → u ≤ v) ∧
    (∀ pe ee, c.freqWords w = none → editsGen c.letters w = some pe →
      (∀ e ∈ pe, c.freqWords e = none) →
      editsOfEdits c.letters pe = some ee →
      (∃ e ∈ ee, (c.freqWords e).isSome) →
      ∃ r v, r ∈ ee ∧ c.freqWords r = some v ∧ c.correct w = some r ∧
        ∀ s u, s ∈ ee → c.freqWords s = some u → u ≤ v) := by
  refine ⟨?_, ?_, ?_⟩
  · intro hc
    rw [Checker.correct, if_pos hc]
  · rintro pe hc hg ⟨e0, he0, hv0⟩
    obtain ⟨v0, hv0s⟩ := Option.isSome_iff_exists.mp hv0
    have hne := buildCandidates_ne_nil he0 hv0s
    cases h1 : selectMax (buildCandidates c pe) with
    | none => exact absurd (selectMax_eq_none h1) hne
    | some r =>
      obtain ⟨hr1, hr2, hr3⟩ := selectMax_buildCandidates h1
      refine ⟨r.2, r.1, hr1, hr2, ?_, hr3⟩
      rw [Checker.correct, if_neg (by simp [hc]), hg]
      show (match selectMax (buildCandidates c pe) with
        | some e => some e.2
        | none =>
          match editsOfEdits c.letters pe with
          | none => none
          | some ee =>
            match selectMax (buildCandidates c ee) with
            | some e => some e.2
            | none => some w) = some r.2
      rw [h1]
  · rintro pe ee hc hg hn1 h2 ⟨e0, he0, hv0⟩
    have hb1 : buildCandidates c pe = [] := buildCandidates_empty hn1
    obtain ⟨v0, hv0s⟩ := Option.isSome_iff_exists.mp hv0
    have hne := buildCandidates_ne_nil he0 hv0s
    cases h3 : selectMax (buildCandidates c ee) with
    | none => exact absurd (selectMax_eq_none h3) hne
    | some r =>
      obtain ⟨hr1, hr2, hr3⟩ := selectMax_buildCandidates h3
      refine ⟨r.2, r.1, hr1, hr2, ?_, hr3⟩
      rw [Checker.correct, if_neg (by simp [hc]), hg]
      show (match selectMax (buildCandidates c pe) with
        | some e => some e.2
        | none =>
          match editsOfEdits c.letters pe with
          | none => none
          | some ee =>
            match selectMax (buildCandidates c ee) with
            | some e => some e.2
            | none => some w) = some r.2
      rw [hb1, show selectMax ([] : List (Nat × Str)) = none from rfl, h2]
      show (match selectMax (buildCandidates c ee) with
        | some e => some e.2
        | none => some w) = some r.2
      rw [h3]

/-- C1 counterexample to the claim as stated: with the trained table
`{"ab"}`, the unknown single-character word `"q"` has no known
distance-1 candidate but does have the known distance-2 candidate
`"ab"`; the claim asserts a distance-2 ranking is performed, but the
code panics (edits of the empty deletion candidate), modelled as
`none`. -/
theorem correct_unknown_single_char_panics :
    (Checker.new.train ['a', 'b']).correct ['q'] = none := by
  decide

/-- C1 witness: with the table `{"ab"}`, the trained word `"ab"` is an
exact match, `"ac"` is corrected through the distance-1 tier, and
`"cd"` through the distance-2 tier. -/
theorem correct_tier_precedence_witness :
    (Checker.new.train ['a', 'b']).correct ['a', 'b'] = some ['a', 'b'] ∧
    (∃ r v,
      r ∈ ((editsGen (Checker.new.train ['a', 'b']).letters
        ['a', 'c']).getD []) ∧
      (Checker.new.train ['a', 'b']).freqWords r = some v ∧
      (Checker.new.train ['a', 'b']).correct ['a', 'c'] = some r ∧
      ∀ s u, s ∈ ((editsGen (Checker.new.train ['a', 'b']).letters
          ['a', 'c']).getD []) →
        (Checker.new.train ['a', 'b']).freqWords s = some u → u ≤ v) ∧
    (∃ r v,
      r ∈ ((editsOfEdits (Checker.new.train ['a', 'b']).letters
        ((editsGen (Checker.new.train ['a', 'b']).letters
          ['c', 'd']).getD [])).getD []) ∧
      (Checker.new.train ['a', 'b']).freqWords r = some v ∧
      (Checker.new.train ['a', 'b']).correct ['c', 'd'] = some r ∧
      ∀ s u, s ∈ ((editsOfEdits (Checker.new.train ['a', 'b']).letters
          ((editsGen (Checker.new.train ['a', 'b']).letters
            ['c', 'd']).getD [])).getD []) →
        (Checker.new.train ['a', 'b']).freqWords s = some u → u ≤ v) := by
  refine ⟨?_, ?_, ?_⟩
  · exact (correct_tier_precedence (Checker.new.train ['a', 'b'])
      ['a', 'b']).1 (by decide)
  · exact (correct_tier_precedence (Checker.new.train ['a', 'b'])
      ['a', 'c']).2.1
      ((editsGen (Checker.new.train ['a', 'b']).letters ['a', 'c']).getD [])
      (by decide) rfl ⟨['a', 'b'], by decide, by decide⟩
  · exact (correct_tier_precedence (Checker.new.train ['a', 'b'])
      ['c', 'd']).2.2
      ((editsGen (Checker.new.train ['a', 'b']).letters ['c', 'd']).getD [])
      ((editsOfEdits (Checker.new.train ['a', 'b']).letters
        ((editsGen (Checker.new.train ['a', 'b']).letters
          ['c', 'd']).getD [])).getD [])
      (by decide) rfl (by decide) rfl ⟨['a', 'b'], by decide, by decide⟩

/-- C4 (amended): `correct` cannot fail on words of length at least two
whose characters are single-byte (with the alphabet installed by
`new`), and whenever the query is unknown, the generator passes
succeed, and no distance-1 or distance-2 candidate is known, it returns
the input word unchanged.  (Totality fails for the words excluded by
the hypotheses: the empty word, unknown single-character words and
words with multi-byte characters make the code panic, see the
counterexample.) -/
theorem correct_total_and_fallback (c : Checker) (w : Str) :
    (c.letters = newLetters → 2 ≤ w.length →
      (∀ ch ∈ w, ch.utf8Size = 1) → (c.correct w).isSome) ∧
    (∀ pe ee, c.freqWords w = none → editsGen c.letters w = some pe →
      (∀ e ∈ pe, c.freqWords e = none) →
      editsOfEdits c.letters pe = some ee →
      (∀ e ∈ ee, c.freqWords e = none) →
      c.correct w = some w) := by
  constructor
  · intro hl h2 hA
    by_cases hc : (c.freqWords w).isSome
    · rw [Checker.correct, if_pos hc]
      rfl
    · have hw : w ≠ [] := by
        intro h
        rw [h] at h2
        simp at h2
      have hlA : ∀ ch ∈ c.letters, ch.utf8Size = 1 := by
        rw [hl]
        decide
      have hg := @editsGen_ascii c.letters w hA hw
      rw [Checker.correct, if_neg hc, hg]
      show (match selectMax (buildCandidates c (editsA c.letters w)) with
        | some e => some e.2
        | none =>
          match editsOfEdits c.letters (editsA c.letters w) with
          | none => none
          | some ee =>
            match selectMax (buildCandidates c ee) with
            | some e => some e.2
            | none => some w).isSome = true
      cases h1 : selectMax (buildCandidates c (editsA c.letters w)) with
      | some e => rfl
      | none =>
        rw [editsOfEdits_ascii hA hlA h2]
        show (match selectMax (buildCandidates c
            (((editsA c.letters w).map (editsA c.letters)).flatten)) with
          | some e => some e.2
          | none => some w).isSome = true
        cases h3 : selectMax (buildCandidates c
            (((editsA c.letters w).map (editsA c.letters)).flatten)) with
        | some e => rfl
        | none => rfl
  · rintro pe ee hc hg hn1 h2 hn2
    have hb1 := buildCandidates_empty hn1
    have hb2 := buildCandidates_empty hn2
    rw [Checker.correct, if_neg (by simp [hc]), hg]
    show (match selectMax (buildCandidates c pe) with
      | some e => some e.2
      | none =>
        match editsOfEdits c.letters pe with
        | none => none
        | some ee =>
          match selectMax (buildCandidates c ee) with
          | some e => some e.2
          | none => some w) = some w
    rw [hb1, show selectMax ([] : List (Nat × Str)) = none from rfl, h2]
    show (match selectMax (buildCandidates c ee) with
      | some e => some e.2
      | none => some w) = some w
    rw [hb2, show selectMax ([] : List (Nat × Str)) = none from rfl]

/-- C4 counterexample to the claim as stated: on the untrained table,
correcting the one-character word é does not return a string at all:
the byte-offset slicing in `edits` panics inside the two-byte character
(modelled as `none`). -/
theorem correct_multibyte_panics : Checker.new.correct ['é'] = none :=
  rfl

/-- C4 witness: on the untrained table, `"ab"` has no known candidate
at any distance and `correct` returns it unchanged without failing. -/
theorem correct_total_and_fallback_witness :
    (Checker.new.correct ['a', 'b']).isSome ∧
    Checker.new.correct ['a', 'b'] = some ['a', 'b'] :=
  ⟨(correct_total_and_fallback Checker.new ['a', 'b']).1 rfl (by decide)
      (by decide),
   (correct_total_and_fallback Checker.new ['a', 'b']).2
     ((editsGen Checker.new.letters ['a', 'b']).getD [])
     ((editsOfEdits Checker.new.letters
       ((editsGen Checker.new.letters ['a', 'b']).getD [])).getD [])
     rfl rfl (fun _ _ => rfl) rfl (fun _ _ => rfl)⟩

/-- C10: the result of `correct` does not depend on the iteration order
of the candidate hash maps: for any permutations `o1`, `o2` of the two
candidate maps (whose keys are distinct by construction), the
order-abstracted corrector agrees with the corrector. -/
theorem correct_order_independent (c : Checker) (w : Str)
    (pe : List Str) (o1 o2 : List (Nat × Str))
    (hg : editsGen c.letters w = some pe)
    (h1 : o1.Perm (buildCandidates c pe))
    (h2 : ∀ ee, editsOfEdits c.letters pe = some ee →
      o2.Perm (buildCandidates c ee)) :
    correctOrd c w o1 o2 = c.correct w := by
  rw [correctOrd, Checker.correct]
  by_cases hc : (c.freqWords w).isSome
  · rw [if_pos hc, if_pos hc]
  · rw [if_neg hc, if_neg hc, hg]
    show (match selectMax o1 with
      | some e => some e.2
      | none =>
        match editsOfEdits c.letters pe with
        | none => none
        | some _ =>
          match selectMax o2 with
          | some e => some e.2
          | none => some w) =
      (match selectMax (buildCandidates c pe) with
      | some e => some e.2
      | none =>
        match editsOfEdits c.letters pe with
        | none => none
        | some ee =>
          match selectMax (buildCandidates c ee) with
          | some e => some e.2
          | none => some w)
    rw [selectMax_perm h1
      ((h1.map Prod.fst).nodup_iff.mpr (buildCandidates_nodup c pe))]
    cases hs1 : selectMax (buildCandidates c pe) with
    | some e => rfl
    | none =>
      cases hoe : editsOfEdits c.letters pe with
      | none => rfl
      | some ee =>
        have hp2 := h2 ee hoe
        show (match selectMax o2 with
          | some e => some e.2
          | none => some w) =
          (match selectMax (buildCandidates c ee) with
          | some e => some e.2
          | none => some w)
        rw [selectMax_perm hp2
          ((hp2.map Prod.fst).nodup_iff.mpr (buildCandidates_nodup c ee))]

/-- C10 witness: with the table `{"ab"}` and the query `"ax"`, feeding
the canonical iteration orders of the two candidate maps through the
order-abstracted corrector reproduces `correct`. -/
theorem correct_order_independent_witness :
    correctOrd (Checker.new.train ['a', 'b']) ['a', 'x']
      (buildCandidates (Checker.new.train ['a', 'b'])
        ((editsGen (Checker.new.train ['a', 'b']).letters
          ['a', 'x']).getD []))
      (buildCandidates (Checker.new.train ['a', 'b'])
        ((editsOfEdits (Checker.new.train ['a', 'b']).letters
          ((editsGen (Checker.new.train ['a', 'b']).letters
            ['a', 'x']).getD [])).getD [])) =
    (Checker.new.train ['a', 'b']).correct ['a', 'x'] :=
  correct_order_independent (Checker.new.train ['a', 'b']) ['a', 'x']
    ((editsGen (Checker.new.train ['a', 'b']).letters ['a', 'x']).getD [])
    _ _ rfl (List.Perm.refl _)
    (fun ee hee => by
      rw [hee]
      exact List.Perm.refl _)

end Spellchecker
